import Mathlib

/-!
Verification of the plotting_tools repository (serial_plotter and workers).

The Python sources are shallowly embedded: byte buffers become `List Nat`,
text lines become `List Char`, the bounded `deque(maxlen=N)` buffers become
lists with an explicit eviction rule, and code that can raise an exception
is modelled with an explicit success flag so that a failure's partial
mutations stay visible.
-/

set_option autoImplicit false

namespace PlottingTools

/-! # Line Framer: serial_plotter.py, pop_next_line_from_buf -/

/-- Bytes of the serial stream are modelled as natural numbers. -/
abbrev Byte := Nat

/-- The LF byte, Python b-backslash-n. -/
def LF : Byte := 10

/-- The CR byte, Python b-backslash-r. -/
def CR : Byte := 13

/-- A byte that terminates a line: LF or CR. -/
def isTermByte (b : Byte) : Bool := b == LF || b == CR

/-- Index of the first byte satisfying p, as bytearray.find returns the
first index or -1 (here none). -/
def find_first (p : Byte → Bool) : List Byte → Option Nat
  | [] => none
  | b :: rest => if p b then some 0 else (find_first p rest).map (· + 1)

/-- Split the buffer at terminator position idx: the line is everything
before idx, the remainder drops the terminator, and additionally drops a
following LF when the terminator byte was CR (the CRLF case). -/
def popAt (buf : List Byte) (idx : Nat) : List Byte × List Byte :=
  (buf.take idx,
    if (buf.drop idx).take 1 = [CR] ∧ (buf.drop (idx + 1)).take 1 = [LF]
    then (buf.drop (idx + 1)).drop 1 else buf.drop (idx + 1))

/-- Faithful embedding of pop_next_line_from_buf: find the first LF and the
first CR, split at the earlier one, and skip a following LF when the
terminator was CR.  Returns the line and the remaining buffer, or none when
no terminator is present.  (Decoding to text is a pure function of the line
bytes, so lines are compared as byte lists.) -/
def pop_next_line_from_buf (buf : List Byte) : Option (List Byte × List Byte) :=
  if buf.isEmpty then none
  else
    match find_first (· == LF) buf, find_first (· == CR) buf with
    | none, none => none
    | some i, none => some (popAt buf i)
    | none, some j => some (popAt buf j)
    | some i, some j => some (popAt buf (min i j))

/-- First terminator byte position in the buffer. -/
def firstTerm (buf : List Byte) : Option Nat := find_first isTermByte buf

/-- popAt restated through getElem / head? / tail. -/
def popAtSpec (buf : List Byte) (idx : Nat) : List Byte × List Byte :=
  (buf.take idx,
    if buf[idx]? = some CR ∧ (buf.drop (idx + 1)).head? = some LF
    then (buf.drop (idx + 1)).tail else buf.drop (idx + 1))

/-- Restatement of pop_next_line_from_buf through the first-terminator
position; proved equal to the embedding below. -/
def popLineSpec (buf : List Byte) : Option (List Byte × List Byte) :=
  match firstTerm buf with
  | none => none
  | some idx => some (popAtSpec buf idx)

theorem find_first_eq_none {p : Byte → Bool} :
    ∀ {l : List Byte}, find_first p l = none ↔ ∀ b ∈ l, p b = false := by
  intro l
  induction l with
  | nil => simp [find_first]
  | cons b rest ih =>
    by_cases hb : p b
    · simp [find_first, hb]
    · simp only [find_first, hb, if_false, List.mem_cons]
      constructor
      · intro h c hc
        rcases hc with rfl | hc
        · simpa using hb
        · exact ih.mp (by cases hfr : find_first p rest <;> simp_all) c hc
      · intro h
        have : find_first p rest = none := ih.mpr fun c hc => h c (Or.inr hc)
        simp [this]

theorem find_first_lt_length {p : Byte → Bool} :
    ∀ {l : List Byte} {i : Nat}, find_first p l = some i → i < l.length := by
  intro l
  induction l with
  | nil => intro i h; simp [find_first] at h
  | cons b rest ih =>
    intro i h
    simp only [find_first] at h
    by_cases hb : p b
    · rw [if_pos hb] at h
      simp only [Option.some.injEq] at h
      simp only [List.length_cons]
      omega
    · rw [if_neg hb] at h
      cases hfr : find_first p rest with
      | none => rw [hfr] at h; simp at h
      | some j =>
        rw [hfr] at h
        simp only [Option.map_some', Option.some.injEq] at h
        have := ih hfr
        simp only [List.length_cons]
        omega

theorem find_first_append_some {p : Byte → Bool} {y : List Byte} :
    ∀ {x : List Byte} {i : Nat}, find_first p x = some i →
      find_first p (x ++ y) = some i := by
  intro x
  induction x with
  | nil => intro i h; simp [find_first] at h
  | cons b rest ih =>
    intro i h
    rw [List.cons_append]
    simp only [find_first] at h ⊢
    by_cases hb : p b
    · rw [if_pos hb] at h ⊢; exact h
    · rw [if_neg hb] at h ⊢
      cases hfr : find_first p rest with
      | none => rw [hfr] at h; simp at h
      | some k =>
        rw [hfr] at h
        rw [ih hfr]
        exact h

theorem find_first_append_none {p : Byte → Bool} {y : List Byte} :
    ∀ {x : List Byte}, find_first p x = none →
      find_first p (x ++ y) = (find_first p y).map (· + x.length) := by
  intro x
  induction x with
  | nil =>
    intro _
    cases hfy : find_first p y <;> simp [hfy]
  | cons b rest ih =>
    intro h
    rw [List.cons_append]
    simp only [find_first] at h ⊢
    by_cases hb : p b
    · rw [if_pos hb] at h; simp at h
    · rw [if_neg hb] at h ⊢
      have hfr : find_first p rest = none := by
        cases hfr : find_first p rest with
        | none => rfl
        | some k => rw [hfr] at h; simp at h
      rw [ih hfr]
      cases hfy : find_first p y with
      | none => simp
      | some j =>
        simp only [Option.map_some', Option.some.injEq, List.length_cons]
        omega

theorem find_first_or (p q : Byte → Bool) :
    ∀ l : List Byte, find_first (fun b => p b || q b) l =
      match find_first p l, find_first q l with
      | none, none => none
      | some i, none => some i
      | none, some j => some j
      | some i, some j => some (min i j) := by
  intro l
  induction l with
  | nil => rfl
  | cons b rest ih =>
    simp only [find_first]
    by_cases hp : p b <;> by_cases hq : q b
    · simp [hp, hq]
    · simp only [hp, hq, if_true, if_false, Bool.true_or]
      cases hfq : find_first q rest with
      | none => simp
      | some j => simp [Nat.min_def]
    · simp only [hp, hq, if_true, if_false, Bool.false_or]
      cases hfp : find_first p rest with
      | none => simp
      | some i => simp [Nat.min_def]
    · simp only [hp, hq, if_false, Bool.false_or, ih]
      cases hfp : find_first p rest with
      | none =>
        cases hfq : find_first q rest with
        | none => simp
        | some j => simp
      | some i =>
        cases hfq : find_first q rest with
        | none => simp
        | some j =>
          simp only [Option.map_some']
          have : min (i + 1) (j + 1) = min i j + 1 := by omega
          simp [this]

/-- The min-of-two-finds in the source picks out the first terminator byte. -/
theorem find_min_eq_firstTerm (buf : List Byte) :
    (match find_first (· == LF) buf, find_first (· == CR) buf with
      | none, none => (none : Option Nat)
      | some i, none => some i
      | none, some j => some j
      | some i, some j => some (min i j)) = firstTerm buf :=
  (find_first_or (· == LF) (· == CR) buf).symm

theorem take_one_eq_iff (l : List Byte) (c : Byte) :
    l.take 1 = [c] ↔ l.head? = some c := by
  cases l <;> simp

theorem head?_drop_eq (buf : List Byte) (n : Nat) :
    (buf.drop n).head? = buf[n]? := by
  induction buf generalizing n with
  | nil => simp
  | cons b rest ih =>
    cases n with
    | zero => simp
    | succ m =>
      rw [List.drop_succ_cons, List.getElem?_cons_succ]
      exact ih m

theorem popAt_eq_popAtSpec (buf : List Byte) (idx : Nat) :
    popAt buf idx = popAtSpec buf idx := by
  unfold popAt popAtSpec
  have hc1 : ((buf.drop idx).take 1 = [CR]) ↔ (buf[idx]? = some CR) := by
    rw [take_one_eq_iff, head?_drop_eq]
  simp only [hc1, take_one_eq_iff, List.drop_one]

/-- The embedded pop function agrees with its first-terminator restatement. -/
theorem pop_eq_popLineSpec (buf : List Byte) :
    pop_next_line_from_buf buf = popLineSpec buf := by
  unfold pop_next_line_from_buf popLineSpec
  by_cases hbuf : buf.isEmpty
  · have hb : buf = [] := by simpa [List.isEmpty_iff] using hbuf
    subst hb
    simp [firstTerm, find_first]
  · rw [if_neg hbuf]
    have hft := find_min_eq_firstTerm buf
    cases hlf : find_first (· == LF) buf <;> cases hcr : find_first (· == CR) buf <;>
      rw [hlf, hcr] at hft <;> dsimp only at hft ⊢ <;> rw [← hft] <;> dsimp only
    · rename_i j
      exact congrArg some (popAt_eq_popAtSpec buf j)
    · rename_i i
      exact congrArg some (popAt_eq_popAtSpec buf i)
    · rename_i i j
      exact congrArg some (popAt_eq_popAtSpec buf (min i j))

theorem pop_nil : pop_next_line_from_buf [] = none := rfl

theorem pop_none_of_noTerm {buf : List Byte} (h : ∀ b ∈ buf, isTermByte b = false) :
    pop_next_line_from_buf buf = none := by
  rw [pop_eq_popLineSpec]
  unfold popLineSpec
  have : firstTerm buf = none := find_first_eq_none.mpr h
  rw [this]

theorem pop_none_noTerm {buf : List Byte} (h : pop_next_line_from_buf buf = none) :
    ∀ b ∈ buf, isTermByte b = false := by
  rw [pop_eq_popLineSpec] at h
  unfold popLineSpec at h
  cases hft : firstTerm buf with
  | none => exact find_first_eq_none.mp hft
  | some idx => rw [hft] at h; simp at h

/-- The remainder after a successful pop is a strict suffix of the buffer. -/
theorem popLineSpec_some_suffix {buf l r : List Byte}
    (h : popLineSpec buf = some (l, r)) :
    ∃ m, 1 ≤ m ∧ m ≤ buf.length ∧ r = buf.drop m := by
  unfold popLineSpec at h
  cases hft : firstTerm buf with
  | none => rw [hft] at h; simp at h
  | some idx =>
    rw [hft] at h
    have hlt : idx < buf.length := find_first_lt_length hft
    simp only [popAtSpec, Option.some.injEq, Prod.mk.injEq] at h
    obtain ⟨-, hr⟩ := h
    by_cases hc : buf[idx]? = some CR ∧ (buf.drop (idx + 1)).head? = some LF
    · rw [if_pos hc] at hr
      refine ⟨idx + 2, by omega, ?_, ?_⟩
      · have hne : buf.drop (idx + 1) ≠ [] := by
          intro hnil
          rw [hnil] at hc
          simp at hc
        have : ¬(buf.length ≤ idx + 1) := by
          intro hle
          exact hne (List.drop_eq_nil_of_le hle)
        omega
      · rw [← hr, List.tail_drop]
    · rw [if_neg hc] at hr
      exact ⟨idx + 1, by omega, by omega, hr.symm⟩

theorem pop_some_length {buf l r : List Byte}
    (h : pop_next_line_from_buf buf = some (l, r)) : r.length < buf.length := by
  rw [pop_eq_popLineSpec] at h
  obtain ⟨m, hm1, hm2, rfl⟩ := popLineSpec_some_suffix h
  rw [List.length_drop]
  omega

/-- A successful pop over x extends to x ++ y with the remainder extended by
y, provided no CRLF pair is split between x and y. -/
theorem popLineSpec_append {x l r : List Byte} (y : List Byte)
    (h : popLineSpec x = some (l, r))
    (hns : ¬(x.getLast? = some CR ∧ y.head? = some LF)) :
    popLineSpec (x ++ y) = some (l, r ++ y) := by
  unfold popLineSpec at h ⊢
  cases hft : firstTerm x with
  | none => rw [hft] at h; simp at h
  | some idx =>
    rw [hft] at h
    have hlt : idx < x.length := find_first_lt_length hft
    have hft2 : firstTerm (x ++ y) = some idx := find_first_append_some hft
    rw [hft2]
    simp only [popAtSpec, Option.some.injEq, Prod.mk.injEq] at h ⊢
    obtain ⟨hl, hr⟩ := h
    have htake : (x ++ y).take idx = x.take idx :=
      List.take_append_of_le_length (by omega)
    have hdropapp : (x ++ y).drop (idx + 1) = x.drop (idx + 1) ++ y :=
      List.drop_append_of_le_length (by omega)
    have hgetapp : (x ++ y)[idx]? = x[idx]? := by
      rw [List.getElem?_append_left hlt]
    refine ⟨by rw [htake, hl], ?_⟩
    rw [hdropapp, hgetapp]
    cases hr0 : x.drop (idx + 1) with
    | nil =>
      rw [hr0] at hr
      have hrnil : r = [] := by
        rw [← hr]
        simp
      subst hrnil
      have hxlen : x.length = idx + 1 := by
        have hle := List.drop_eq_nil_iff.mp hr0
        omega
      by_cases hcr : x[idx]? = some CR
      · have hlast : x.getLast? = some CR := by
          rw [List.getLast?_eq_getElem?, hxlen]
          simpa using hcr
        have hy : ¬(y.head? = some LF) := fun hy => hns ⟨hlast, hy⟩
        rw [if_neg (fun hc => hy (by simpa using hc.2))]
      · rw [if_neg (fun hc => hcr hc.1)]
    | cons hh tt =>
      rw [hr0] at hr
      by_cases hcr : x[idx]? = some CR
      · by_cases hLF : hh = LF
        · rw [if_pos ⟨hcr, by simp [hLF]⟩] at hr
          rw [if_pos ⟨hcr, by simp [hLF]⟩]
          rw [← hr]
          simp
        · rw [if_neg (fun hc => hLF (by simpa using hc.2))] at hr
          rw [if_neg (fun hc => hLF (by simpa using hc.2))]
          rw [← hr]
      · rw [if_neg (fun hc => hcr hc.1)] at hr
        rw [if_neg (fun hc => hcr hc.1)]
        rw [← hr]

/-- Pop lines from the buffer until none remains, with explicit fuel; one
byte is consumed per pop, so length-many steps always suffice. -/
def popAllFuel : Nat → List Byte → List (List Byte) × List Byte
  | 0, buf => ([], buf)
  | fuel + 1, buf =>
    match pop_next_line_from_buf buf with
    | none => ([], buf)
    | some (l, r) =>
      ((l :: (popAllFuel fuel r).1), (popAllFuel fuel r).2)

/-- The inner while-loop of serial_reader: pop complete lines until
pop_next_line_from_buf returns None, collecting the popped lines and
keeping the unterminated remainder. -/
def popAll (buf : List Byte) : List (List Byte) × List Byte :=
  popAllFuel buf.length buf

theorem popAllFuel_stable : ∀ (n : Nat) (m : Nat) (buf : List Byte),
    buf.length ≤ n → buf.length ≤ m → popAllFuel n buf = popAllFuel m buf := by
  intro n
  induction n with
  | zero =>
    intro m buf h1 _
    have hbuf : buf = [] := List.eq_nil_of_length_eq_zero (by omega)
    subst hbuf
    cases m with
    | zero => rfl
    | succ m' => rfl
  | succ n ih =>
    intro m buf h1 h2
    cases hpop : pop_next_line_from_buf buf with
    | none =>
      cases m with
      | zero =>
        have hbuf : buf = [] := List.eq_nil_of_length_eq_zero (by omega)
        subst hbuf
        rfl
      | succ m' => simp [popAllFuel, hpop]
    | some lr =>
      obtain ⟨l, r⟩ := lr
      have hne : buf ≠ [] := by
        intro hnil
        rw [hnil, pop_nil] at hpop
        exact Option.noConfusion hpop
      have hlen : 1 ≤ buf.length := by
        cases buf with
        | nil => exact absurd rfl hne
        | cons a t => simp
      cases m with
      | zero => omega
      | succ m' =>
        have hr : r.length < buf.length := pop_some_length hpop
        simp only [popAllFuel, hpop]
        rw [ih m' r (by omega) (by omega)]

theorem popAll_of_pop_none {buf : List Byte}
    (h : pop_next_line_from_buf buf = none) : popAll buf = ([], buf) := by
  unfold popAll
  cases hl : buf.length with
  | zero => rfl
  | succ k => simp [popAllFuel, h]

theorem popAll_of_pop_some {buf l r : List Byte}
    (h : pop_next_line_from_buf buf = some (l, r)) :
    popAll buf = (l :: (popAll r).1, (popAll r).2) := by
  unfold popAll
  have hne : buf ≠ [] := by
    intro hnil
    rw [hnil, pop_nil] at h
    exact Option.noConfusion h
  cases hl : buf.length with
  | zero => exact absurd (List.eq_nil_of_length_eq_zero hl) hne
  | succ k =>
    have hr : r.length < buf.length := pop_some_length h
    simp only [popAllFuel, h]
    rw [popAllFuel_stable k r.length r (by omega) (by omega)]

/-- After the pop loop finishes, the leftover buffer holds no terminator. -/
theorem popAll_snd_noTerm : ∀ (n : Nat) (buf : List Byte), buf.length ≤ n →
    ∀ b ∈ (popAll buf).2, isTermByte b = false := by
  intro n
  induction n with
  | zero =>
    intro buf h1 b hb
    have hbuf : buf = [] := List.eq_nil_of_length_eq_zero (by omega)
    subst hbuf
    rw [popAll_of_pop_none pop_nil] at hb
    simp at hb
  | succ n ih =>
    intro buf h1 b hb
    cases hpop : pop_next_line_from_buf buf with
    | none =>
      rw [popAll_of_pop_none hpop] at hb
      exact pop_none_noTerm hpop b hb
    | some lr =>
      obtain ⟨l, r⟩ := lr
      rw [popAll_of_pop_some hpop] at hb
      have hr : r.length < buf.length := pop_some_length hpop
      exact ih r (by omega) b hb

theorem getLast?_drop_of_ne_nil {α : Type} : ∀ (l : List α) (n : Nat), l.drop n ≠ [] →
    (l.drop n).getLast? = l.getLast? := by
  intro l
  induction l with
  | nil => intro n h; simp at h
  | cons a t ih =>
    intro n h
    cases n with
    | zero => rfl
    | succ m =>
      rw [List.drop_succ_cons] at h ⊢
      have ht : t ≠ [] := by
        intro hnil
        rw [hnil, List.drop_nil] at h
        exact h rfl
      rw [ih m h]
      cases t with
      | nil => exact absurd rfl ht
      | cons b t' => rw [List.getLast?_cons_cons]

/-- Composition of the pop loop over an append, provided no CRLF pair is
split at the boundary: first pop everything from x, then continue on the
leftover extended by y. -/
theorem popAll_append_aux : ∀ (n : Nat) (x y : List Byte), x.length ≤ n →
    ¬(x.getLast? = some CR ∧ y.head? = some LF) →
    popAll (x ++ y) = ((popAll x).1 ++ (popAll ((popAll x).2 ++ y)).1,
                       (popAll ((popAll x).2 ++ y)).2) := by
  intro n
  induction n with
  | zero =>
    intro x y hx _
    have hxe : x = [] := List.eq_nil_of_length_eq_zero (by omega)
    subst hxe
    rw [popAll_of_pop_none pop_nil]
    simp
  | succ n ih =>
    intro x y hx hns
    cases hpop : pop_next_line_from_buf x with
    | none =>
      rw [popAll_of_pop_none hpop]
      simp
    | some lr =>
      obtain ⟨l, r⟩ := lr
      have hpops : popLineSpec x = some (l, r) := by
        rw [← pop_eq_popLineSpec]
        exact hpop
      have hpapp : pop_next_line_from_buf (x ++ y) = some (l, r ++ y) := by
        rw [pop_eq_popLineSpec]
        exact popLineSpec_append y hpops hns
      obtain ⟨m, hm1, hm2, hrdrop⟩ := popLineSpec_some_suffix hpops
      have hrlen : r.length < x.length := pop_some_length hpop
      have hrlast : ¬(r.getLast? = some CR ∧ y.head? = some LF) := by
        rintro ⟨h1, h2⟩
        apply hns
        refine ⟨?_, h2⟩
        have hrne : r ≠ [] := by
          intro hnil
          rw [hnil] at h1
          simp at h1
        rw [hrdrop] at h1 hrne
        rw [← getLast?_drop_of_ne_nil x m hrne]
        exact h1
      rw [popAll_of_pop_some hpop, popAll_of_pop_some hpapp]
      rw [ih r y (by omega) hrlast]
      simp

theorem popAll_append (x y : List Byte)
    (hns : ¬(x.getLast? = some CR ∧ y.head? = some LF)) :
    popAll (x ++ y) = ((popAll x).1 ++ (popAll ((popAll x).2 ++ y)).1,
                       (popAll ((popAll x).2 ++ y)).2) :=
  popAll_append_aux x.length x y le_rfl hns

theorem mem_of_getLast?_eq : ∀ (l : List Byte) (a : Byte), l.getLast? = some a → a ∈ l := by
  intro l
  induction l with
  | nil => intro a h; simp at h
  | cons b t ih =>
    intro a h
    cases t with
    | nil =>
      simp at h
      simp [h]
    | cons c t' =>
      rw [List.getLast?_cons_cons] at h
      exact List.mem_cons_of_mem b (ih a h)

/-- Incremental feeding: append each arriving chunk to the accumulated
buffer, then pop complete lines until none remains, exactly as the read
loop of serial_reader does. -/
def processChunks : List Byte → List (List Byte) → List (List Byte)
  | _, [] => []
  | buf, c :: cs =>
    (popAll (buf ++ c)).1 ++ processChunks (popAll (buf ++ c)).2 cs

/-- Lines emitted when the byte sequence arrives split into the given chunks. -/
def feedChunks (chunks : List (List Byte)) : List (List Byte) :=
  processChunks [] chunks

/-- Lines emitted when the whole byte sequence arrives as a single chunk. -/
def feedAll (bytes : List Byte) : List (List Byte) :=
  (popAll bytes).1

/-- No chunk boundary splits a CRLF pair: no chunk ends with CR while the
remaining bytes begin with LF. -/
def noSplitCRLF : List (List Byte) → Bool
  | [] => true
  | c :: cs => !(c.getLast? == some CR && cs.flatten.head? == some LF) && noSplitCRLF cs

theorem processChunks_flatten : ∀ (cs : List (List Byte)) (buf : List Byte),
    (∀ b ∈ buf, isTermByte b = false) → noSplitCRLF cs = true →
    processChunks buf cs = (popAll (buf ++ cs.flatten)).1 := by
  intro cs
  induction cs with
  | nil =>
    intro buf hbuf _
    rw [List.flatten_nil, List.append_nil]
    rw [processChunks, popAll_of_pop_none (pop_none_of_noTerm hbuf)]
  | cons c cs ih =>
    intro buf hbuf hsplit
    simp only [noSplitCRLF, Bool.and_eq_true, Bool.not_eq_true', Bool.and_eq_false_iff,
      beq_eq_false_iff_ne, ne_eq] at hsplit
    obtain ⟨h1, h2⟩ := hsplit
    have hns : ¬((buf ++ c).getLast? = some CR ∧ cs.flatten.head? = some LF) := by
      rintro ⟨hl, hh⟩
      cases hc : c with
      | nil =>
        rw [hc, List.append_nil] at hl
        have hmem : CR ∈ buf := mem_of_getLast?_eq buf CR hl
        have := hbuf CR hmem
        simp [isTermByte, CR, LF] at this
      | cons cc ct =>
        rw [hc, List.getLast?_append_of_ne_nil buf (by simp)] at hl
        rw [← hc] at hl
        rcases h1 with h1 | h1
        · exact h1 hl
        · exact h1 hh
    rw [List.flatten_cons, ← List.append_assoc]
    rw [processChunks]
    have hnoterm : ∀ b ∈ (popAll (buf ++ c)).2, isTermByte b = false :=
      popAll_snd_noTerm (buf ++ c).length (buf ++ c) le_rfl
    rw [ih (popAll (buf ++ c)).2 hnoterm h2]
    rw [popAll_append (buf ++ c) cs.flatten hns]

/-- Claim C1, counterexample: chunking invariance fails for the Line
Framer.  Splitting the bytes 97 CR LF as chunks [97, CR] and [LF] emits
the line [97] and then a spurious empty line for the LF half, while the
single chunk [97, CR, LF] emits only [97]. -/
theorem chunking_invariance_counterexample :
    feedChunks [[97, CR], [LF]] = [[97], []] ∧
    feedAll ([[97, CR], [LF]] : List (List Byte)).flatten = [[97]] ∧
    feedChunks [[97, CR], [LF]] ≠ feedAll ([[97, CR], [LF]] : List (List Byte)).flatten := by
  refine ⟨by decide, by decide, by decide⟩

/-- Claim C1 (amended): chunking invariance holds for every chunking in
which no chunk boundary splits a CRLF pair (no chunk ends with CR while
the remaining bytes begin with LF); under that restriction, feeding the
chunks incrementally emits exactly the same lines in the same order as
feeding the whole byte sequence at once. -/
theorem chunking_invariance_of_noSplit (chunks : List (List Byte))
    (h : noSplitCRLF chunks = true) :
    feedChunks chunks = feedAll chunks.flatten := by
  unfold feedChunks feedAll
  rw [processChunks_flatten chunks [] (by simp) h, List.nil_append]

/-- Witness for the amended claim C1 at a concrete chunking: the bytes of
two CRLF/LF-terminated lines split into three chunks, none of which splits
a CRLF pair. -/
theorem chunking_invariance_of_noSplit_witness :
    noSplitCRLF [[104, 105, CR, LF], [104, LF], [33]] = true ∧
    feedChunks [[104, 105, CR, LF], [104, LF], [33]] =
      feedAll ([[104, 105, CR, LF], [104, LF], [33]] : List (List Byte)).flatten :=
  ⟨by decide, chunking_invariance_of_noSplit [[104, 105, CR, LF], [104, LF], [33]] (by decide)⟩

/-! # Sample Parser: serial_plotter.py / worker_serial_str.py, parse_line

The regex searched per key is: word-boundary, the escaped key, optional
whitespace, a colon or equals sign, optional whitespace, then the captured
group, a number of the form minus-sign? digits (dot digits)?, followed by a
word boundary.  The model implements Python re.search semantics for this
pattern: leftmost match over start positions, greedy runs for whitespace
and digit classes (no backtracking can change them, since the characters
that follow each run are outside its class), and the one real backtracking
point, dropping the optional fraction when the trailing word boundary
fails after it.  Inputs are ASCII, so the ASCII tables for the whitespace,
word and digit classes are faithful. -/

/-- Keys are character lists (Python str). -/
abbrev Key := List Char

/-- Python regex whitespace class, ASCII part: space, tab, LF, CR,
vertical tab, form feed. -/
def isSpaceChar (c : Char) : Bool :=
  c = ' ' || c = '\t' || c = '\n' || c = '\r' || c.toNat = 11 || c.toNat = 12

/-- Python regex word class, ASCII part: letters, digits, underscore. -/
def isWordChar (c : Char) : Bool := c.isAlphanum || c = '_'

def isWordOpt : Option Char → Bool
  | some c => isWordChar c
  | none => false

/-- A word boundary holds between positions i-1 and i when exactly one
side is a word character (positions outside the string are non-word). -/
def boundaryAt (cs : List Char) (i : Nat) : Bool :=
  isWordOpt (if i = 0 then none else cs[i - 1]?) != isWordOpt cs[i]?

/-- Consume the literal key at the front of the remaining input. -/
def dropKey : List Char → List Char → Option (List Char)
  | [], s => some s
  | _ :: _, [] => none
  | k :: ks, c :: s => if c = k then dropKey ks s else none

/-- Match the group minus-sign? digits (dot digits)? then a word boundary,
maximally munched, with the single backtracking point of dropping the
fraction when the boundary after it fails.  Returns the captured token and
the rest of the input. -/
def parseNum (s : List Char) : Option (List Char × List Char) :=
  let signAndRest : List Char × List Char :=
    match s with
    | c :: rest => if c = '-' then (['-'], rest) else ([], s)
    | [] => ([], s)
  let sign := signAndRest.1
  let s1 := signAndRest.2
  let ds := s1.takeWhile Char.isDigit
  if ds.isEmpty then none
  else
    let s2 := s1.drop ds.length
    let fracAndRest : List Char × List Char :=
      match s2 with
      | c :: rest =>
        if c = '.' then
          let fs := rest.takeWhile Char.isDigit
          if fs.isEmpty then ([], s2) else ('.' :: fs, rest.drop fs.length)
        else ([], s2)
      | [] => ([], s2)
    let frac := fracAndRest.1
    let s3 := fracAndRest.2
    if isWordOpt s3.head? = false then some (sign ++ ds ++ frac, s3)
    else if frac.isEmpty = false then some (sign ++ ds, s2)
    else none

/-- Try to match the whole per-key pattern starting at position i. -/
def matchKeyAt (cs key : List Char) (i : Nat) : Option (List Char) :=
  if boundaryAt cs i then
    match dropKey key (cs.drop i) with
    | none => none
    | some s1 =>
      match s1.dropWhile isSpaceChar with
      | [] => none
      | c :: s3 =>
        if c = ':' ∨ c = '=' then
          (parseNum (s3.dropWhile isSpaceChar)).map Prod.fst
        else none
  else none

/-- re.search: scan start positions left to right and return the captured
number token of the first match. -/
def searchKey (cs key : List Char) : Option (List Char) :=
  (List.range (cs.length + 1)).findSome? (fun i => matchKeyAt cs key i)

/-- Value of a digit run read in base 10. -/
def digitsVal (ds : List Char) : Nat :=
  ds.foldl (fun n c => n * 10 + (c.toNat - 48)) 0

/-- Split a captured number token into its sign flag, integer digits and
fraction digits. -/
def splitNumToken (t : List Char) : Bool × List Char × List Char :=
  let negAndRest : Bool × List Char :=
    match t with
    | c :: rest => if c = '-' then (true, rest) else (false, t)
    | [] => (false, t)
  let ip := negAndRest.2.takeWhile Char.isDigit
  let rest := negAndRest.2.drop ip.length
  let fs : List Char :=
    match rest with
    | c :: rest' => if c = '.' then rest'.takeWhile Char.isDigit else []
    | [] => []
  (negAndRest.1, ip, fs)

/-- Magnitude of a decimal token with the given integer and fraction
digit runs. -/
def ratMag (ip fs : List Char) : ℚ :=
  (digitsVal ip : ℚ) + (digitsVal fs : ℚ) / (10 : ℚ) ^ fs.length

/-- Python float() applied to a captured token; decimal tokens denote
exact decimal values, modelled as rationals. -/
def ratOfToken (t : List Char) : ℚ :=
  if (splitNumToken t).1 then -(ratMag (splitNumToken t).2.1 (splitNumToken t).2.2)
  else ratMag (splitNumToken t).2.1 (splitNumToken t).2.2

/-- parse_line, token stage: for every required key locate its captured
number token; None as soon as any key has no match. -/
def parse_line_tokens (line : List Char) : List Key → Option (List (Key × List Char))
  | [] => some []
  | k :: ks =>
    match searchKey line k with
    | none => none
    | some tok =>
      match parse_line_tokens line ks with
      | none => none
      | some rest => some ((k, tok) :: rest)

/-- Faithful embedding of parse_line: per-key regex search in any order,
float conversion of each captured token; all-or-nothing. -/
def parse_line (line : List Char) (keys : List Key) : Option (List (Key × ℚ)) :=
  (parse_line_tokens line keys).map (List.map (fun e => (e.1, ratOfToken e.2)))

theorem parse_line_tokens_keys :
    ∀ (keys : List Key) (line : List Char) (vals : List (Key × List Char)),
      parse_line_tokens line keys = some vals → vals.map Prod.fst = keys := by
  intro keys
  induction keys with
  | nil =>
    intro line vals h
    simp only [parse_line_tokens, Option.some.injEq] at h
    rw [← h]
    rfl
  | cons k ks ih =>
    intro line vals h
    simp only [parse_line_tokens] at h
    cases hs : searchKey line k with
    | none => rw [hs] at h; simp at h
    | some tok =>
      rw [hs] at h
      cases hr : parse_line_tokens line ks with
      | none => rw [hr] at h; simp at h
      | some rest =>
        rw [hr] at h
        simp only [Option.some.injEq] at h
        rw [← h]
        simp [ih line rest hr]

theorem parse_line_keys {line : List Char} {keys : List Key} {vals : List (Key × ℚ)}
    (h : parse_line line keys = some vals) : vals.map Prod.fst = keys := by
  unfold parse_line at h
  cases ht : parse_line_tokens line keys with
  | none => rw [ht] at h; simp at h
  | some tvals =>
    rw [ht] at h
    simp only [Option.map_some', Option.some.injEq] at h
    rw [← h, List.map_map]
    have := parse_line_tokens_keys keys line tvals ht
    rw [← this]
    rfl

/-- Claim C2: the Sample Parser is all-or-nothing.  Whenever parse_line
returns a mapping, that mapping holds exactly the required keys in order,
with a numeric value for every one of them; and the line out=5 with
required keys out, up is rejected entirely. -/
theorem parse_line_all_or_nothing :
    (∀ (line : List Char) (keys : List Key) (vals : List (Key × ℚ)),
        parse_line line keys = some vals →
        vals.map Prod.fst = keys ∧ ∀ k ∈ keys, ∃ v, (k, v) ∈ vals) ∧
    parse_line "out=5".toList ["out".toList, "up".toList] = none := by
  constructor
  · intro line keys vals h
    have hk := parse_line_keys h
    refine ⟨hk, ?_⟩
    intro k hkmem
    rw [← hk] at hkmem
    obtain ⟨p, hmem, hfst⟩ := List.mem_map.mp hkmem
    refine ⟨p.2, ?_⟩
    have hpk : (k, p.2) = p := by rw [← hfst]
    rw [hpk]
    exact hmem
  · decide

/-- Witness for claim C2 at the concrete line out=1 with required key out. -/
theorem parse_line_all_or_nothing_witness :
    ([("out".toList, ratOfToken ['1'])].map Prod.fst = ["out".toList]) ∧
    (∀ k ∈ ["out".toList], ∃ v, (k, v) ∈ [("out".toList, ratOfToken ['1'])]) :=
  have hp : parse_line "out=1".toList ["out".toList] =
      some [("out".toList, ratOfToken ['1'])] := by
    unfold parse_line
    rw [show parse_line_tokens "out=1".toList ["out".toList] =
      some [("out".toList, ['1'])] from by decide]
    rfl
  parse_line_all_or_nothing.1 _ _ _ hp

/-- Claim C3: token form of the Sample Parser.  The separator may be a
colon or an equals sign with optional surrounding whitespace, the number
may carry a minus sign and a decimal fraction, matching is
keyword-bounded (out does not match inside clout), and in particular
the line out:12.5 extra=3 with required key out parses to 12.5. -/
theorem parse_line_token_form :
    parse_line "out:12.5 extra=3".toList ["out".toList] =
      some [("out".toList, (25 : ℚ)/2)] ∧
    parse_line "out = -3.5".toList ["out".toList] =
      some [("out".toList, -((7 : ℚ)/2))] ∧
    parse_line "clout:12.5".toList ["out".toList] = none := by
  refine ⟨?_, ?_, ?_⟩
  · unfold parse_line
    rw [show parse_line_tokens "out:12.5 extra=3".toList ["out".toList] =
      some [("out".toList, "12.5".toList)] from by decide]
    have hv : ratOfToken ['1','2','.','5'] = 25/2 := by
      have hs : splitNumToken ['1','2','.','5'] = (false, ['1','2'], ['5']) := by decide
      unfold ratOfToken
      rw [hs]
      norm_num [ratMag, show digitsVal ['1','2'] = 12 from by decide,
        show digitsVal ['5'] = 5 from by decide]
    simp [hv]
  · unfold parse_line
    rw [show parse_line_tokens "out = -3.5".toList ["out".toList] =
      some [("out".toList, "-3.5".toList)] from by decide]
    have hv : ratOfToken ['-','3','.','5'] = -(7/2) := by
      have hs : splitNumToken ['-','3','.','5'] = (true, ['3'], ['5']) := by decide
      unfold ratOfToken
      rw [hs]
      norm_num [ratMag, show digitsVal ['3'] = 3 from by decide,
        show digitsVal ['5'] = 5 from by decide]
    simp [hv]
  · decide

/-! # Rolling Buffer Pair: serial_plotter.py main, deque(maxlen=wp) buffers

t_buf and one deque per tracked key all share the capacity wp; the drain
loop appends rec t to t_buf and rec.get(k, nan) to each y_bufs[k]. -/

/-- A plotted value: a parsed number, or the not-a-number filler used when
an incoming record lacks a tracked key. -/
inductive PlotValue where
  | nan : PlotValue
  | num : ℚ → PlotValue
deriving DecidableEq

/-- deque(maxlen=N).append: append at the right; when the deque holds N
elements already, the leftmost (oldest) element is discarded. -/
def dequeAppend {α : Type} (maxlen : Nat) (l : List α) (x : α) : List α :=
  (l ++ [x]).drop ((l.length + 1) - maxlen)

/-- Python dict lookup in an association list. -/
def lookupKey {α : Type} (k : Key) : List (Key × α) → Option α
  | [] => none
  | (k', v) :: rest => if k = k' then some v else lookupKey k rest

/-- The pair of rolling buffers: the timestamp deque and one value deque
per tracked key, in tracked-key order. -/
structure RollingBuffers where
  t_buf : List ℚ
  y_bufs : List (Key × List PlotValue)
deriving DecidableEq

/-- t_buf = deque(maxlen=wp); y_bufs = one empty deque per tracked key. -/
def initBuffers (keys : List Key) : RollingBuffers :=
  ⟨[], keys.map (fun k => (k, []))⟩

/-- A record drained from the queue: its timestamp and its key-to-value
mapping. -/
abbrev SampleRec := ℚ × List (Key × ℚ)

/-- rec.get(k, float(nan)): the record's value for key k, or NaN. -/
def valueFor (k : Key) (r : SampleRec) : PlotValue :=
  match lookupKey k r.2 with
  | some v => PlotValue.num v
  | none => PlotValue.nan

/-- One iteration of the drain loop: t_buf.append(rec t) and, for every
tracked key k, y_bufs[k].append(rec.get(k, nan)). -/
def appendRecord (wp : Nat) (bufs : RollingBuffers) (r : SampleRec) : RollingBuffers :=
  ⟨dequeAppend wp bufs.t_buf r.1,
   bufs.y_bufs.map (fun e => (e.1, dequeAppend wp e.2 (valueFor e.1 r)))⟩

/-- Drain a whole sequence of records into the buffers. -/
def appendAll (wp : Nat) (bufs : RollingBuffers) (recs : List SampleRec) : RollingBuffers :=
  recs.foldl (appendRecord wp) bufs

theorem drop_append_drop {α : Type} (a xs : List α) (d d' : Nat) (hd : d ≤ a.length) :
    (a.drop d ++ xs).drop d' = (a ++ xs).drop (d + d') := by
  rw [← List.drop_append_of_le_length hd, List.drop_drop]

theorem foldl_dequeAppend {α : Type} (N : Nat) :
    ∀ (xs l : List α), l.length ≤ N →
      xs.foldl (dequeAppend N) l = (l ++ xs).drop ((l.length + xs.length) - N) := by
  intro xs
  induction xs with
  | nil =>
    intro l hl
    rw [List.foldl_nil, List.append_nil]
    have h0 : l.length + ([] : List α).length - N = 0 := by simp; omega
    rw [h0, List.drop_zero]
  | cons x xs ih =>
    intro l hl
    rw [List.foldl_cons]
    have hlen : (dequeAppend N l x).length = l.length + 1 - (l.length + 1 - N) := by
      unfold dequeAppend
      rw [List.length_drop, List.length_append]
      simp
    have hle : (dequeAppend N l x).length ≤ N := by rw [hlen]; omega
    rw [ih (dequeAppend N l x) hle, hlen]
    unfold dequeAppend
    rw [drop_append_drop (l ++ [x]) xs (l.length + 1 - N)
      (l.length + 1 - (l.length + 1 - N) + xs.length - N)
      (by rw [List.length_append, List.length_singleton]; omega)]
    rw [List.append_assoc, List.singleton_append]
    congr 1
    simp only [List.length_cons]
    omega

theorem appendAll_t (wp : Nat) : ∀ (recs : List SampleRec) (bufs : RollingBuffers),
    (appendAll wp bufs recs).t_buf =
      (recs.map Prod.fst).foldl (dequeAppend wp) bufs.t_buf := by
  intro recs
  induction recs with
  | nil => intro bufs; rfl
  | cons r recs ih =>
    intro bufs
    show (appendAll wp (appendRecord wp bufs r) recs).t_buf = _
    rw [ih]
    rfl

theorem appendAll_y (wp : Nat) : ∀ (recs : List SampleRec) (bufs : RollingBuffers),
    (appendAll wp bufs recs).y_bufs =
      bufs.y_bufs.map
        (fun e => (e.1, (recs.map (valueFor e.1)).foldl (dequeAppend wp) e.2)) := by
  intro recs
  induction recs with
  | nil =>
    intro bufs
    simp only [List.map_nil, List.foldl_nil]
    exact (List.map_id bufs.y_bufs).symm
  | cons r recs ih =>
    intro bufs
    show (appendAll wp (appendRecord wp bufs r) recs).y_bufs = _
    rw [ih]
    show (bufs.y_bufs.map _).map _ = _
    rw [List.map_map]
    rfl

theorem dequeAppend_length {α : Type} (N : Nat) (l : List α) (x : α) :
    (dequeAppend N l x).length = min (l.length + 1) N := by
  unfold dequeAppend
  rw [List.length_drop, List.length_append, List.length_singleton]
  omega

theorem dequeAppend_getLast {α : Type} (N : Nat) (hN : 1 ≤ N) (l : List α) (x : α) :
    (dequeAppend N l x).getLast? = some x := by
  unfold dequeAppend
  have hne : (l ++ [x]).drop (l.length + 1 - N) ≠ [] := by
    intro h
    have hlen := congrArg List.length h
    rw [List.length_drop, List.length_append, List.length_singleton] at hlen
    simp at hlen
    omega
  rw [getLast?_drop_of_ne_nil _ _ hne, List.getLast?_concat]

/-- Claim C4: FIFO eviction at capacity.  After N+1 appends into buffers of
capacity N at least 1, every buffer holds exactly the last N appended
entries in order: the timestamp buffer equals the appended timestamps with
the first dropped, so its length is N, its most recent element is the last
appended timestamp, and the first appended timestamp is absent whenever it
does not recur later; every key's value buffer is likewise the appended
values with the first dropped, evicted simultaneously. -/
theorem rolling_buffer_fifo (N : Nat) (hN : 1 ≤ N) (keys : List Key)
    (recs : List SampleRec) (hlen : recs.length = N + 1) :
    (appendAll N (initBuffers keys) recs).t_buf = (recs.map Prod.fst).drop 1 ∧
    (appendAll N (initBuffers keys) recs).t_buf.length = N ∧
    (appendAll N (initBuffers keys) recs).t_buf.getLast? =
      (recs.map Prod.fst).getLast? ∧
    (∀ t0, (recs.map Prod.fst).head? = some t0 →
      t0 ∉ (recs.map Prod.fst).drop 1 →
      t0 ∉ (appendAll N (initBuffers keys) recs).t_buf) ∧
    (appendAll N (initBuffers keys) recs).y_bufs =
      keys.map (fun k => (k, (recs.map (valueFor k)).drop 1)) ∧
    (∀ e ∈ (appendAll N (initBuffers keys) recs).y_bufs, e.2.length = N) := by
  have ht : (appendAll N (initBuffers keys) recs).t_buf = (recs.map Prod.fst).drop 1 := by
    rw [appendAll_t]
    show (recs.map Prod.fst).foldl (dequeAppend N) [] = _
    rw [foldl_dequeAppend N (recs.map Prod.fst) [] (by simp), List.nil_append]
    have hidx : ([] : List ℚ).length + (recs.map Prod.fst).length - N = 1 := by
      rw [List.length_map, hlen]
      simp only [List.length_nil]
      omega
    rw [hidx]
  have hy : (appendAll N (initBuffers keys) recs).y_bufs =
      keys.map (fun k => (k, (recs.map (valueFor k)).drop 1)) := by
    rw [appendAll_y]
    show (keys.map (fun k => (k, ([] : List PlotValue)))).map _ = _
    rw [List.map_map]
    apply List.map_congr_left
    intro k _
    show (k, (recs.map (valueFor k)).foldl (dequeAppend N) []) = _
    rw [foldl_dequeAppend N _ [] (by simp), List.nil_append]
    have hidx : ([] : List PlotValue).length + (recs.map (valueFor k)).length - N = 1 := by
      rw [List.length_map, hlen]
      simp only [List.length_nil]
      omega
    rw [hidx]
  refine ⟨ht, ?_, ?_, ?_, hy, ?_⟩
  · rw [ht, List.length_drop, List.length_map, hlen]
    omega
  · rw [ht]
    apply getLast?_drop_of_ne_nil
    intro hnil
    have hc := congrArg List.length hnil
    rw [List.length_drop, List.length_map, hlen] at hc
    simp at hc
    omega
  · intro t0 _ h2
    rw [ht]
    exact h2
  · intro e he
    rw [hy] at he
    obtain ⟨k, _, rfl⟩ := List.mem_map.mp he
    show ((recs.map (valueFor k)).drop 1).length = N
    rw [List.length_drop, List.length_map, hlen]
    omega

/-- Witness for claim C4: capacity 1, two appended records; the timestamp
buffer keeps exactly the second timestamp. -/
theorem rolling_buffer_fifo_witness :
    1 ≤ 1 ∧
    (appendAll 1 (initBuffers [['o']])
        [((1 : ℚ), [(['o'], (5 : ℚ))]), ((2 : ℚ), [])]).t_buf =
      (([((1 : ℚ), [(['o'], (5 : ℚ))]), ((2 : ℚ), [])] : List SampleRec).map
        Prod.fst).drop 1 :=
  ⟨le_rfl, (rolling_buffer_fifo 1 le_rfl [['o']]
    [((1 : ℚ), [(['o'], (5 : ℚ))]), ((2 : ℚ), [])] rfl).1⟩

/-- Claim C5: a missing key is recorded as NaN and the length invariant is
preserved: one drain-loop append pushes the timestamp and, for every
tracked key, the record's value if present and NaN otherwise, so equal
buffer lengths are preserved, and the most recent element of each key's
buffer is exactly that pushed value. -/
theorem append_nan_fill (wp : Nat) (hwp : 1 ≤ wp) (bufs : RollingBuffers)
    (t : ℚ) (vals : List (Key × ℚ))
    (hinv : ∀ e ∈ bufs.y_bufs, e.2.length = bufs.t_buf.length) :
    (∀ e ∈ (appendRecord wp bufs (t, vals)).y_bufs,
        e.2.length = (appendRecord wp bufs (t, vals)).t_buf.length) ∧
    (∀ e ∈ (appendRecord wp bufs (t, vals)).y_bufs,
        e.2.getLast? = some (valueFor e.1 (t, vals))) ∧
    (∀ k, lookupKey k vals = none → valueFor k (t, vals) = PlotValue.nan) ∧
    (∀ k v, lookupKey k vals = some v → valueFor k (t, vals) = PlotValue.num v) := by
  refine ⟨?_, ?_, ?_, ?_⟩
  · intro e he
    obtain ⟨e0, he0, rfl⟩ := List.mem_map.mp he
    show (dequeAppend wp e0.2 (valueFor e0.1 (t, vals))).length =
      (dequeAppend wp bufs.t_buf t).length
    rw [dequeAppend_length, dequeAppend_length, hinv e0 he0]
  · intro e he
    obtain ⟨e0, he0, rfl⟩ := List.mem_map.mp he
    exact dequeAppend_getLast wp hwp e0.2 (valueFor e0.1 (t, vals))
  · intro k hk
    unfold valueFor
    show (match lookupKey k vals with
      | some v => PlotValue.num v
      | none => PlotValue.nan) = PlotValue.nan
    rw [hk]
  · intro k v hk
    unfold valueFor
    show (match lookupKey k vals with
      | some v => PlotValue.num v
      | none => PlotValue.nan) = PlotValue.num v
    rw [hk]

/-- Witness for claim C5: appending a record with no values to buffers
holding one entry keeps every series length equal to the timestamp
buffer's length. -/
theorem append_nan_fill_witness :
    1 ≤ 2 ∧
    (∀ e ∈ (appendRecord 2 ⟨[(0 : ℚ)], [(['o'], [PlotValue.nan])]⟩
        ((1 : ℚ), [])).y_bufs,
      e.2.length = (appendRecord 2 ⟨[(0 : ℚ)], [(['o'], [PlotValue.nan])]⟩
        ((1 : ℚ), [])).t_buf.length) :=
  ⟨by omega, (append_nan_fill 2 (by omega) ⟨[(0 : ℚ)], [(['o'], [PlotValue.nan])]⟩
    1 [] (by decide)).1⟩

/-! # Worker variants: worker_csv.py, worker_log.py, worker_serial_str.py

The replay and serial workers share a buffer pair x_src (timestamps) and
y_src (one series per key, keys = list(y_src.keys())).  Python appends
happen one by one and an exception aborts the function at the failure
point, so each step is modelled as returning the possibly partially
mutated state together with a success flag; a false flag means the Python
code raised at that point.  The opening of files, pandas parsing,
ready_event signalling and the pacing sleeps are outside these claims and
are not modelled. -/

/-- The worker-side buffer pair: timestamps and per-key value series. -/
structure SrcBuffers where
  x_src : List ℚ
  y_src : List (Key × List ℚ)
deriving DecidableEq

/-- y_src[k].append(v): append v to the series stored under key k. -/
def updateY (y : List (Key × List ℚ)) (k : Key) (v : ℚ) : List (Key × List ℚ) :=
  y.map (fun e => if e.1 = k then (e.1, e.2 ++ [v]) else e)

/-- The per-row loop, for n in keys: y_src[n].append(src[n]): appends in
key order, stopping with failure at the first key absent from the value
source (Python raises KeyError there, keeping the appends already made). -/
def appendYs (vals : List (Key × ℚ)) : List Key → SrcBuffers → SrcBuffers × Bool
  | [], st => (st, true)
  | k :: ks, st =>
    match lookupKey k vals with
    | none => (st, false)
    | some v => appendYs vals ks { st with y_src := updateY st.y_src k v }

/-- One row of csv_reader: x_src.append(row[0]) first, then the per-key
append loop; a row lacking a tracked key's column fails after the
timestamp (and any earlier keys) were already appended. -/
def csv_row_step (keys : List Key) (st : SrcBuffers) (row : List (Key × ℚ)) :
    SrcBuffers × Bool :=
  match row.head? with
  | none => (st, false)
  | some c0 => appendYs row keys { st with x_src := st.x_src ++ [c0.2] }

/-- The csv_reader thread body over the rows of the file: processes every
row in order; a row failure raises out of the function (there is no
try/except), aborting the remaining rows.  The stop_event parameter is
received but never read by the body. -/
def csv_reader_run (stop : Bool) (keys : List Key) (rows : List (List (Key × ℚ)))
    (st : SrcBuffers) : SrcBuffers × Bool :=
  match rows with
  | [] => (st, true)
  | row :: rest =>
    match csv_row_step keys st row with
    | (st1, true) => csv_reader_run stop keys rest st1
    | (st1, false) => (st1, false)

/-- The apostrophe character, written by code point to keep source plain. -/
def quoteChar : Char := Char.ofNat 39

/-- The timestamp-token regex of log_reader: find b-quote, capture one or
more non-bracket characters, then a literal opening bracket; leftmost
match, group 1 returned. -/
def searchTsToken (cs : List Char) : Option (List Char) :=
  (List.range cs.length).findSome? fun i =>
    match cs.drop i with
    | a :: b :: rest =>
      if a = 'b' ∧ b = quoteChar then
        if (rest.takeWhile (fun c => !(c == '['))).isEmpty = false ∧
            (rest.drop (rest.takeWhile (fun c => !(c == '['))).length).head? = some '[' then
          some (rest.takeWhile (fun c => !(c == '[')))
        else none
      else none
    | _ => none

/-- Python str.strip: remove whitespace from both ends. -/
def stripChars (s : List Char) : List Char :=
  ((s.dropWhile isSpaceChar).reverse.dropWhile isSpaceChar).reverse

/-- Python int() on a string: optional sign then decimal digits; anything
else raises ValueError (None here). -/
def pyInt? (s : List Char) : Option Int :=
  match s with
  | [] => none
  | c :: rest =>
    if c = '-' then
      if rest.isEmpty = false ∧ rest.all Char.isDigit then
        some (-(digitsVal rest : Int))
      else none
    else if c = '+' then
      if rest.isEmpty = false ∧ rest.all Char.isDigit then
        some ((digitsVal rest : Int))
      else none
    else if s.all Char.isDigit then some ((digitsVal s : Int)) else none

/-- ts = int(match.group(1).strip()) of log_reader; None when the regex
does not match (AttributeError) or int() fails (ValueError), both raised
before any append. -/
def extract_ts (line : List Char) : Option Int :=
  (searchTsToken line).bind (fun g => pyInt? (stripChars g))

/-- if not offset: offset = ts — None and 0 are both falsy. -/
def logOffset (offset : Option Int) (ts : Int) : Int :=
  match offset with
  | none => ts
  | some o => if o = 0 then ts else o

/-- One line of log_reader: parse the line (skip silently when it does not
parse or parses to an empty mapping), extract the timestamp token (raising
before any append when that fails), then append the scaled timestamp and
every key's value. -/
def log_row_step (keys : List Key) (st : SrcBuffers) (offset : Option Int)
    (line : List Char) : SrcBuffers × Option Int × Bool :=
  match parse_line line keys with
  | none => (st, offset, true)
  | some vals =>
    if vals.isEmpty then (st, offset, true)
    else
      match extract_ts line with
      | none => (st, offset, false)
      | some ts =>
        ((appendYs vals keys
            { st with x_src := st.x_src ++
              [(((ts - logOffset offset ts).fdiv 1000 : Int) : ℚ)] }).1,
         some (logOffset offset ts),
         (appendYs vals keys
            { st with x_src := st.x_src ++
              [(((ts - logOffset offset ts).fdiv 1000 : Int) : ℚ)] }).2)

/-- The log_reader thread body over the lines of the file: processes every
line in order; a line failure raises out of the function (no try/except),
aborting the remaining lines.  The stop_event parameter is never read. -/
def log_reader_run (stop : Bool) (keys : List Key) (lines : List (List Char))
    (offset : Option Int) (st : SrcBuffers) : SrcBuffers × Bool :=
  match lines with
  | [] => (st, true)
  | line :: rest =>
    match log_row_step keys st offset line with
    | (st1, off1, true) => log_reader_run stop keys rest off1 st1
    | (st1, _, false) => (st1, false)

/-- Python f-string of ser.readline(): the repr of a bytes object, always
a string starting with b and a quote — never None, never empty.  (Byte
escaping inside the repr is not modelled; no claim depends on it.) -/
def pyBytesRepr (bs : List Byte) : List Char :=
  'b' :: quoteChar :: (bs.map (fun b => Char.ofNat b)) ++ [quoteChar]

/-- line = f-string of ser.readline() in worker_serial_str.serial_reader;
the value tested against None by the inner loop's break condition. -/
def serial_str_line (bs : List Byte) : Option (List Char) :=
  some (pyBytesRepr bs)

/-- The loop body of worker_serial_str.serial_reader over a finite model
of the read stream: each read carries its bytes and the monotonic clock
at arrival; a parsed line appends the timestamp (wall-clock when x_delta
is 0, accumulated otherwise, both divided by 1000) and every key's value;
an unparsed line is only logged. -/
def serial_str_go (keys : List Key) (x_delta start : ℚ) :
    List (List Byte × ℚ) → ℚ → SrcBuffers → SrcBuffers
  | [], _, st => st
  | (b, tm) :: rest, t_rel, st =>
    match parse_line (pyBytesRepr b) keys with
    | some vals =>
      (fun t' =>
        (fun p =>
          if p.2 then serial_str_go keys x_delta start rest t' p.1 else p.1)
        (appendYs vals keys
          { st with x_src := st.x_src ++ [t' / 1000] }))
      (if x_delta = 0 then tm - start else t_rel + x_delta)
    | none => serial_str_go keys x_delta start rest t_rel st

/-- The worker_serial_str.serial_reader thread body: outer loop guarded by
the Stop Signal, inner read loop wrapped in try/except with a finally
block that always sets the Stop Signal before returning; the second
component is the Stop Signal state on return. -/
def serial_str_run (stop0 : Bool) (keys : List Key) (x_delta start : ℚ)
    (reads : List (List Byte × ℚ)) (st : SrcBuffers) : SrcBuffers × Bool :=
  if stop0 then (st, true)
  else (serial_str_go keys x_delta start reads 0 st, true)

theorem lookupKey_isSome_of_mem {α : Type} :
    ∀ (vals : List (Key × α)) (k : Key),
      k ∈ vals.map Prod.fst → (lookupKey k vals).isSome = true := by
  intro vals
  induction vals with
  | nil => intro k h; simp at h
  | cons e rest ih =>
    intro k h
    simp only [List.map_cons, List.mem_cons] at h
    show (if k = e.1 then some e.2 else lookupKey k rest).isSome = true
    by_cases hk : k = e.1
    · rw [if_pos hk]; rfl
    · rw [if_neg hk]
      apply ih
      rcases h with h | h
      · exact absurd h hk
      · exact h

theorem appendYs_x : ∀ (ks : List Key) (vals : List (Key × ℚ)) (st : SrcBuffers),
    (appendYs vals ks st).1.x_src = st.x_src := by
  intro ks
  induction ks with
  | nil => intro vals st; rfl
  | cons k ks ih =>
    intro vals st
    simp only [appendYs]
    cases hl : lookupKey k vals with
    | none => rfl
    | some v => exact ih vals _

theorem appendYs_ok : ∀ (ks : List Key) (vals : List (Key × ℚ)) (st : SrcBuffers),
    (∀ k ∈ ks, (lookupKey k vals).isSome = true) →
    (appendYs vals ks st).2 = true := by
  intro ks
  induction ks with
  | nil => intro vals st _; rfl
  | cons k ks ih =>
    intro vals st h
    have hk := h k (List.mem_cons_self k ks)
    obtain ⟨v, hv⟩ := Option.isSome_iff_exists.mp hk
    simp only [appendYs]
    rw [hv]
    exact ih vals _ (fun k' hk' => h k' (List.mem_cons_of_mem k hk'))

/-- Occurrences of a key in a key list. -/
def countKey (k : Key) : List Key → Nat
  | [] => 0
  | k' :: ks => (if k' = k then 1 else 0) + countKey k ks

theorem countKey_eq_zero_of_not_mem : ∀ (l : List Key) (a : Key), a ∉ l → countKey a l = 0 := by
  intro l
  induction l with
  | nil => intro a _; rfl
  | cons b t ih =>
    intro a h
    show (if b = a then 1 else 0) + countKey a t = 0
    have hba : b ≠ a := fun hb => h (by rw [← hb]; exact List.mem_cons_self b t)
    rw [if_neg hba, ih a (fun hm => h (List.mem_cons_of_mem b hm))]

theorem countKey_eq_one_of_nodup_mem : ∀ (l : List Key) (a : Key),
    l.Nodup → a ∈ l → countKey a l = 1 := by
  intro l
  induction l with
  | nil => intro a _ h; simp at h
  | cons b t ih =>
    intro a hnd hmem
    show (if b = a then 1 else 0) + countKey a t = 1
    rcases List.mem_cons.mp hmem with rfl | hmem2
    · rw [if_pos rfl, countKey_eq_zero_of_not_mem t a (List.nodup_cons.mp hnd).1]
    · have hb : b ≠ a := fun h => (List.nodup_cons.mp hnd).1 (h ▸ hmem2)
      rw [if_neg hb, ih a (List.nodup_cons.mp hnd).2 hmem2]

theorem appendYs_y_pairs : ∀ (ks : List Key) (vals : List (Key × ℚ)) (st : SrcBuffers),
    (∀ k ∈ ks, (lookupKey k vals).isSome = true) →
    (appendYs vals ks st).1.y_src.map (fun e => (e.1, e.2.length)) =
      st.y_src.map (fun e => (e.1, e.2.length + countKey e.1 ks)) := by
  intro ks
  induction ks with
  | nil =>
    intro vals st _
    simp [appendYs, countKey]
  | cons k ks ih =>
    intro vals st h
    have hk := h k (List.mem_cons_self k ks)
    obtain ⟨v, hv⟩ := Option.isSome_iff_exists.mp hk
    simp only [appendYs]
    rw [hv]
    rw [ih vals _ (fun k' hk' => h k' (List.mem_cons_of_mem k hk'))]
    show (updateY st.y_src k v).map _ = _
    unfold updateY
    rw [List.map_map]
    apply List.map_congr_left
    intro e _
    by_cases hek : e.1 = k
    · dsimp only [Function.comp]
      rw [if_pos hek]
      refine congrArg (Prod.mk e.1) ?_
      show (e.2 ++ [v]).length + countKey e.1 ks =
        e.2.length + ((if k = e.1 then 1 else 0) + countKey e.1 ks)
      rw [List.length_append, List.length_singleton, if_pos hek.symm]
      omega
    · dsimp only [Function.comp]
      rw [if_neg hek]
      refine congrArg (Prod.mk e.1) ?_
      show e.2.length + countKey e.1 ks =
        e.2.length + ((if k = e.1 then 1 else 0) + countKey e.1 ks)
      rw [if_neg (fun hkk => hek hkk.symm)]
      omega

/-- Claim C6, counterexample: append atomicity fails for the CSV replay
worker.  On a row holding only the timestamp column and out, with tracked
keys out and up, csv_row_step appends the timestamp and the out value and
then raises at the missing up column: the run fails, the state differs
from the initial one, the timestamp buffer gained an entry while the up
series is still empty — the buffer pair is left partially mutated. -/
theorem worker_atomicity_counterexample :
    (csv_row_step [['o'], ['u']] ⟨[], [(['o'], []), (['u'], [])]⟩
      [(['t'], (0 : ℚ)), (['o'], (1 : ℚ))]).2 = false ∧
    (csv_row_step [['o'], ['u']] ⟨[], [(['o'], []), (['u'], [])]⟩
      [(['t'], (0 : ℚ)), (['o'], (1 : ℚ))]).1 ≠ ⟨[], [(['o'], []), (['u'], [])]⟩ ∧
    (csv_row_step [['o'], ['u']] ⟨[], [(['o'], []), (['u'], [])]⟩
      [(['t'], (0 : ℚ)), (['o'], (1 : ℚ))]).1.x_src.length = 1 ∧
    lookupKey ['u'] (csv_row_step [['o'], ['u']] ⟨[], [(['o'], []), (['u'], [])]⟩
      [(['t'], (0 : ℚ)), (['o'], (1 : ℚ))]).1.y_src = some [] := by
  refine ⟨by decide, by decide, by decide, by decide⟩

/-- Claim C6 (amended): the log replay worker is append-atomic: for every
line, either the buffer pair is left exactly unchanged (unparsed line, or
a failure raised before any append), or the timestamp buffer and every
tracked key's series each grow by exactly one entry.  The CSV replay
worker violates atomicity as the counterexample shows. -/
theorem log_worker_append_atomic (keys : List Key) (st : SrcBuffers)
    (off : Option Int) (line : List Char)
    (hk : st.y_src.map Prod.fst = keys) (hnd : keys.Nodup) :
    (log_row_step keys st off line).1 = st ∨
    ((log_row_step keys st off line).1.x_src.length = st.x_src.length + 1 ∧
     (log_row_step keys st off line).1.y_src.map (fun e => e.2.length) =
       st.y_src.map (fun e => e.2.length + 1)) := by
  unfold log_row_step
  cases hp : parse_line line keys with
  | none => left; rfl
  | some vals =>
    dsimp only
    by_cases hve : vals.isEmpty = true
    · rw [if_pos hve]
      left
      rfl
    · rw [if_neg hve]
      cases het : extract_ts line with
      | none => left; rfl
      | some ts =>
        right
        have hvk : vals.map Prod.fst = keys := parse_line_keys hp
        have hsome : ∀ k ∈ keys, (lookupKey k vals).isSome = true := by
          intro k hkk
          apply lookupKey_isSome_of_mem
          rw [hvk]
          exact hkk
        constructor
        · show (appendYs vals keys _).1.x_src.length = st.x_src.length + 1
          rw [appendYs_x]
          show (st.x_src ++ [_]).length = st.x_src.length + 1
          rw [List.length_append, List.length_singleton]
        · show (appendYs vals keys _).1.y_src.map (fun e => e.2.length) = _
          have hpairs := appendYs_y_pairs keys vals
            { st with x_src := st.x_src ++
              [(((ts - logOffset off ts).fdiv 1000 : Int) : ℚ)] } hsome
          have hsnd := congrArg (List.map Prod.snd) hpairs
          rw [List.map_map, List.map_map] at hsnd
          refine hsnd.trans ?_
          apply List.map_congr_left
          intro e he
          have hmem : e.1 ∈ keys := by
            rw [← hk]
            exact List.mem_map_of_mem Prod.fst he
          show e.2.length + countKey e.1 keys = e.2.length + 1
          rw [countKey_eq_one_of_nodup_mem keys e.1 hnd hmem]

/-- Witness for the amended claim C6: a concrete log line carrying both a
timestamp token and the tracked key appends exactly one entry everywhere. -/
theorem log_worker_append_atomic_witness :
    (log_row_step ["out".toList] ⟨[], [("out".toList, [])]⟩ none
      "b'100[ out=1".toList).1 = (⟨[], [("out".toList, [])]⟩ : SrcBuffers) ∨
    ((log_row_step ["out".toList] ⟨[], [("out".toList, [])]⟩ none
      "b'100[ out=1".toList).1.x_src.length =
        (⟨[], [("out".toList, [])]⟩ : SrcBuffers).x_src.length + 1 ∧
     (log_row_step ["out".toList] ⟨[], [("out".toList, [])]⟩ none
      "b'100[ out=1".toList).1.y_src.map (fun e => e.2.length) =
       (⟨[], [("out".toList, [])]⟩ : SrcBuffers).y_src.map (fun e => e.2.length + 1)) :=
  log_worker_append_atomic ["out".toList] ⟨[], [("out".toList, [])]⟩ none
    "b'100[ out=1".toList (by decide) (by decide)

/-- Claim C7, counterexample: the CSV replay reader does not poll the Stop
Signal every iteration.  With the Stop Signal already set before the loop
starts, it still processes the file's row and mutates the buffer pair,
instead of exiting promptly without further work. -/
theorem stop_polling_counterexample :
    (csv_reader_run true [['o']] [[(['t'], (0 : ℚ)), (['o'], (1 : ℚ))]]
      ⟨[], [(['o'], [])]⟩).1 ≠ ⟨[], [(['o'], [])]⟩ := by decide

/-- Claim C7 (amended): the CSV and log replay readers never read the Stop
Signal: their entire behavior is independent of its value, and they
process the whole finite file regardless.  worker_serial_str's reader
checks the signal only at its outer loop, which is effective when the
signal is set before the loop (no work is done); its inner loop's break
condition, the formatted read result being None, never holds, so the
outer check is not reached again from inside the inner loop. -/
theorem stop_polling_amended :
    (∀ (s : Bool) (keys : List Key) (rows : List (List (Key × ℚ))) (st : SrcBuffers),
        csv_reader_run s keys rows st = csv_reader_run true keys rows st) ∧
    (∀ (s : Bool) (keys : List Key) (lines : List (List Char)) (off : Option Int)
        (st : SrcBuffers),
        log_reader_run s keys lines off st = log_reader_run true keys lines off st) ∧
    (∀ bs : List Byte, serial_str_line bs ≠ none) ∧
    (∀ (keys : List Key) (x_delta start : ℚ) (reads : List (List Byte × ℚ))
        (st : SrcBuffers), serial_str_run true keys x_delta start reads st = (st, true)) := by
  refine ⟨?_, ?_, ?_, ?_⟩
  · intro s keys rows
    induction rows with
    | nil => intro st; rfl
    | cons row rest ih =>
      intro st
      simp only [csv_reader_run]
      cases hcs : csv_row_step keys st row with
      | mk st1 ok =>
        cases ok with
        | false => rfl
        | true => exact ih st1
  · intro s keys lines
    induction lines with
    | nil => intro off st; rfl
    | cons line rest ih =>
      intro off st
      simp only [log_reader_run]
      cases hls : log_row_step keys st off line with
      | mk st1 rest2 =>
        cases rest2 with
        | mk off1 ok =>
          cases ok with
          | false => rfl
          | true => exact ih off1 st1
  · intro bs
    simp [serial_str_line]
  · intro keys x_delta start reads st
    rfl

/-- Claim C8, counterexample: the csv_reader thread body has no exception
handler; a row lacking a tracked key's column makes the whole thread body
raise (failure flag false), the exception crossing the thread boundary
uncaught. -/
theorem exception_propagation_counterexample :
    (csv_reader_run true [['o'], ['u']] [[(['t'], (0 : ℚ)), (['o'], (1 : ℚ))]]
      ⟨[], [(['o'], []), (['u'], [])]⟩).2 = false := by decide

/-- Claim C8 (amended): worker_serial_str's reader catches failures inside
the thread body and its finally block always leaves the Stop Signal set on
return, whatever the input stream; the CSV and log replay thread bodies
have no handler, so a processing failure (here: a log line that parses but
whose timestamp token cannot be extracted) propagates out of the thread
function uncaught. -/
theorem exception_propagation_amended :
    (∀ (stop0 : Bool) (keys : List Key) (x_delta start : ℚ)
        (reads : List (List Byte × ℚ)) (st : SrcBuffers),
        (serial_str_run stop0 keys x_delta start reads st).2 = true) ∧
    (log_reader_run true ["out".toList] ["noise out=1".toList] none
      ⟨[], [("out".toList, [])]⟩).2 = false := by
  constructor
  · intro stop0 keys x_delta start reads st
    unfold serial_str_run
    by_cases h : stop0 = true
    · rw [if_pos h]
    · rw [if_neg h]
  · decide

/-! # Session Logger: serial_plotter.py main, CSV setup and the stdin
control channel -/

/-- A session CSV file as a list of rows, each row a list of cells; an
empty file (os.path.getsize == 0) is the empty row list. -/
abbrev SessionFile := List (List (List Char))

/-- The header row written by csv_wr.writerow, t followed by the keys. -/
def headerRow (keys : List Key) : List (List Char) :=
  "t".toList :: keys

/-- open() in mode a or w creates the file when missing, so the
os.path.exists test evaluated after the open always holds. -/
def fileExistsAfterOpen : Bool := true

/-- File content right after the open call: append mode keeps the existing
content (nothing, if the file did not exist), write mode truncates. -/
def contentAfterOpen (csv_append : Bool) (existing : Option SessionFile) : SessionFile :=
  if csv_append then existing.getD [] else []

/-- The CSV logging setup of main: open the session file in append or
write mode, then write the header row exactly when not CSV_APPEND, or
CSV_APPEND and (the file does not exist or its size is zero). -/
def open_session_csv (csv_append : Bool) (existing : Option SessionFile)
    (keys : List Key) : SessionFile :=
  if (!csv_append) || (csv_append &&
      ((!fileExistsAfterOpen) || (contentAfterOpen csv_append existing).isEmpty)) then
    contentAfterOpen csv_append existing ++ [headerRow keys]
  else contentAfterOpen csv_append existing

/-- Claim C9: the session log header is written exactly once per file.
Opening in append mode writes the header row if and only if the file is
newly created or empty; reopening a file with existing non-empty content
leaves the content unchanged, never adding a second header row. -/
theorem session_header_once (existing : Option SessionFile) (keys : List Key) :
    ((existing = none ∨ existing = some []) →
      open_session_csv true existing keys = [headerRow keys]) ∧
    (∀ rows, rows ≠ [] → existing = some rows →
      open_session_csv true existing keys = rows) := by
  constructor
  · intro h
    rcases h with rfl | rfl
    · rfl
    · rfl
  · intro rows hne heq
    subst heq
    cases rows with
    | nil => exact absurd rfl hne
    | cons r rest => rfl

/-- Witness for claim C9: reopening a file already holding its header row
does not gain a duplicate header. -/
theorem session_header_once_witness :
    open_session_csv true (some [headerRow ["out".toList]]) ["out".toList] =
      [headerRow ["out".toList]] :=
  (session_header_once (some [headerRow ["out".toList]]) ["out".toList]).2
    [headerRow ["out".toList]] (by decide) rfl

/-- State of the stdin-driven start/stop logging toggle in main. -/
structure CtrlState where
  is_start : Bool
  currentFile : Option (List Char)
  openedFiles : List (List Char)
deriving DecidableEq

/-- The stop branch: a line equal to a bare newline clears the active
flag and closes the current file; other lines leave the state alone.
(The Python condition tests truthiness first: if single_csv_file, then
equality with the newline string.) -/
def ctrl_stop_stage (st : CtrlState) (line : List Char) : CtrlState :=
  if line ≠ [] ∧ line = ['\n'] then { st with is_start := false, currentFile := none }
  else st

/-- One operator line handled by the render loop: the stop branch first;
then, when the line differs from a bare newline and no segment is active,
a new segment is opened, named from the line without its last character
plus the timestamp suffix and the csv extension.  The line carries its
trailing newline as produced by readline. -/
def handle_ctrl_line (st : CtrlState) (line ts : List Char) : CtrlState :=
  if line ≠ ['\n'] ∧ (ctrl_stop_stage st line).is_start = false then
    { is_start := true,
      currentFile := some (line.dropLast ++ '_' :: (ts ++ ".csv".toList)),
      openedFiles := (ctrl_stop_stage st line).openedFiles ++
        [line.dropLast ++ '_' :: (ts ++ ".csv".toList)] }
  else ctrl_stop_stage st line

/-- Claim C10, counterexample: not every non-empty operator line starts a
new segment.  With a segment already active, the non-empty line b does
not open a new file: the state is returned unchanged. -/
theorem ctrl_toggle_counterexample :
    handle_ctrl_line ⟨true, some "a_1.csv".toList, ["a_1.csv".toList]⟩
      "b\n".toList "2".toList =
      ⟨true, some "a_1.csv".toList, ["a_1.csv".toList]⟩ := by decide

/-- Claim C10 (amended): an empty operator line stops the current segment,
clearing the active flag and closing the file; a non-empty line starts a
new segment, named from its content plus the timestamp suffix, only when
no segment is currently active; while a segment is active, non-empty
lines leave the state unchanged. -/
theorem ctrl_toggle (st : CtrlState) (L ts : List Char) :
    ((handle_ctrl_line st ['\n'] ts).is_start = false ∧
     (handle_ctrl_line st ['\n'] ts).currentFile = none ∧
     (handle_ctrl_line st ['\n'] ts).openedFiles = st.openedFiles) ∧
    (st.is_start = false → L ≠ [] →
      handle_ctrl_line st (L ++ ['\n']) ts =
        ⟨true, some (L ++ '_' :: (ts ++ ".csv".toList)),
          st.openedFiles ++ [L ++ '_' :: (ts ++ ".csv".toList)]⟩) ∧
    (st.is_start = true → L ≠ [] →
      handle_ctrl_line st (L ++ ['\n']) ts = st) := by
  have happne : ∀ M : List Char, M ≠ [] → M ++ ['\n'] ≠ ['\n'] := by
    intro M hM heq
    have hlen : M.length + 1 = 1 := by
      have h0 := congrArg List.length heq
      simpa using h0
    exact hM (List.eq_nil_of_length_eq_zero (by omega))
  refine ⟨?_, ?_, ?_⟩
  · have hstage : ctrl_stop_stage st ['\n'] =
        { st with is_start := false, currentFile := none } := rfl
    unfold handle_ctrl_line
    rw [if_neg (fun hc => hc.1 rfl), hstage]
    exact ⟨rfl, rfl, rfl⟩
  · intro hstart hL
    have hstage : ctrl_stop_stage st (L ++ ['\n']) = st :=
      if_neg (fun hc => happne L hL hc.2)
    unfold handle_ctrl_line
    rw [hstage, if_pos ⟨happne L hL, hstart⟩, List.dropLast_concat]
  · intro hstart hL
    have hstage : ctrl_stop_stage st (L ++ ['\n']) = st :=
      if_neg (fun hc => happne L hL hc.2)
    unfold handle_ctrl_line
    rw [hstage, if_neg (fun hc => by rw [hstart] at hc; simp at hc)]

/-- Witness for the amended claim C10: from an idle state, the operator
line a opens the segment a_1.csv. -/
theorem ctrl_toggle_witness :
    handle_ctrl_line ⟨false, none, []⟩ (['a'] ++ ['\n']) ['1'] =
      ⟨true, some (['a'] ++ '_' :: (['1'] ++ ".csv".toList)),
        ([] : List (List Char)) ++ [['a'] ++ '_' :: (['1'] ++ ".csv".toList)]⟩ :=
  (ctrl_toggle ⟨false, none, []⟩ ['a'] ['1']).2.1 rfl (by decide)
